import Mathlib

/-!
Verification development for the goscade lifecycle manager.

The definitions below are a shallow embedding of the Go source:
`lifecycle.go` (status machine, scopes, supervision-task return paths,
registration) and `dependencies.go` (structural dependency extraction and
breadth-first cycle detection).  Go map iteration order is unspecified, so
maps are embedded as association lists whose list order plays the role of
one concrete iteration order; theorems quantify over that order where the
claim does.  Goroutine bodies that compute a value deterministically from
their inputs are embedded as pure functions on those inputs.
-/

namespace Goscade

/-! ## Lifecycle status machine (`lifecycle.go`, `setStatus`, lines 178-201) -/

/-- The five lifecycle states of `LifecycleStatus` in `lifecycle.go`. -/
inductive LifecycleStatus where
  | idle
  | running
  | ready
  | stopping
  | stopped
deriving DecidableEq, Repr

open LifecycleStatus

/-- Position of a status in the documented order
`idle < running < ready < stopping < stopped`. -/
def statusRank : LifecycleStatus → Nat
  | .idle => 0
  | .running => 1
  | .ready => 2
  | .stopping => 3
  | .stopped => 4

/-- Embedding of `(*lifecycle).setStatus`: the `switch` guards only the
transitions to `stopping` (allowed from `running` or `ready`) and to
`ready` (allowed from `running`); every other target is accepted
unconditionally.  Returns the `bool` result paired with the stored status
after the call. -/
def setStatus (status newStatus : LifecycleStatus) : Bool × LifecycleStatus :=
  match newStatus with
  | .stopping =>
      if status ≠ .running ∧ status ≠ .ready then (false, status)
      else (true, newStatus)
  | .ready =>
      if status ≠ .running then (false, status)
      else (true, newStatus)
  | _ => (true, newStatus)

/-- The trace of stored status values produced by a sequence of
`setStatus` calls, starting from the status `s` (the head of the trace). -/
def statusTrace (s : LifecycleStatus) : List LifecycleStatus → List LifecycleStatus
  | [] => [s]
  | n :: rest => s :: statusTrace (setStatus s n).2 rest

/-- Stored statuses over time for calls starting from `idle`, as observed
by `Status()` between successive `setStatus` calls. -/
def setStatusSeq (reqs : List LifecycleStatus) : List LifecycleStatus :=
  statusTrace .idle reqs

/-- A status trace is non-decreasing in the documented order. -/
def statusMonotone (l : List LifecycleStatus) : Prop :=
  List.Chain' (fun a b => statusRank a ≤ statusRank b) l


/-! ## Error values and causal cancellation scopes

Go `error` values are embedded as `Option GoErr` (`none` is Go `nil`).
`GoErr.canceled` stands for the sentinel `context.Canceled`;
`errors.Is(err, context.Canceled)` is equality with it in this model. -/

/-- The non-nil error values the engine distinguishes:
`context.Canceled`, `context.DeadlineExceeded`,
`UnexpectedCloseComponentError`, `CascadeCloseComponentError`,
and arbitrary component-supplied errors. -/
inductive GoErr where
  | canceled
  | deadlineExceeded
  | unexpectedClose
  | cascadeClose
  | custom (msg : String)
deriving DecidableEq, Repr

/-- A cancellable scope from `context.WithCancelCause`: `none` means the
scope has not been canceled; `some c` means it is canceled and
`context.Cause` returns `c`. -/
structure CancelScope where
  cause : Option GoErr
deriving DecidableEq, Repr

/-- Semantics of a `context.CancelCauseFunc` call: the first cancellation
records its cause (a `nil` cause argument records `context.Canceled`);
a call on an already-canceled scope is a no-op. -/
def cancelScope (s : CancelScope) (c : Option GoErr) : CancelScope :=
  match s.cause with
  | some _ => s
  | none => ⟨some (c.getD .canceled)⟩

/-- Embedding of `waitCtxErr` in `lifecycle.go`: given the cause a scope
was canceled with, return `nil` when the cause is `context.Canceled`
and the cause itself otherwise. -/
def waitCtxErr (cause : GoErr) : Option GoErr :=
  if cause = .canceled then none else some cause

/-! ## Supervision-task return paths (`lifecycle.go`, `runComponent` and `Run`) -/

/-- The value received from the `waitAllParentProbes` channel by the
runner closure in `runComponent`: the goroutine walks the parents'
probe-scope causes in map order and sends the first non-`nil`
`waitCtxErr` result, or `nil` if every parent probe ended without
failure. -/
def waitAllParentProbesRecv (parentProbeCauses : List GoErr) : Option GoErr :=
  parentProbeCauses.findSome? waitCtxErr

/-- The full list of send operations the `waitAllParentProbes` goroutine
performs on its unbuffered channel: on the first failing parent it sends
that error and `break`s out of the loop, after which the unconditional
final statement sends `nil` as well; with no failing parent only the
final `nil` is sent. -/
def parentProbeWaiterSends (parentProbeCauses : List GoErr) : List (Option GoErr) :=
  match parentProbeCauses.findSome? waitCtxErr with
  | some e => [some e, none]
  | none => [none]

/-- The runner closure in `runComponent` performs exactly one receive
from `waitAllParentProbes`. -/
def runnerTaskReceives : Nat := 1

/-- Result returned by the `runner.Go` closure of `runComponent`: if the
value received from `waitAllParentProbes` is non-`nil` and not
`context.Canceled` the closure returns it without invoking the
component; otherwise it returns the component's own `Run` result. -/
def runnerTaskResult (parentRecv : Option GoErr) (runResult : Option GoErr) : Option GoErr :=
  match parentRecv with
  | some e => if e = .canceled then runResult else some e
  | none => runResult

/-- Post-`Run` handling in the `runner.Go` closure: `Run` returning `nil`
cancels the lifecycle scope with `UnexpectedCloseComponentError`, any
other value cancels it with that value; `cancelScope` keeps the first
recorded cause. -/
def postRunLifecycleCancel (lifecycleScope : CancelScope) (err : Option GoErr) : CancelScope :=
  match err with
  | none => cancelScope lifecycleScope (some .unexpectedClose)
  | some e => cancelScope lifecycleScope (some e)

/-- `errgroup.Group.Wait`: the first non-`nil` closure result in
completion order, or `nil` when every closure returned `nil`. -/
def errgroupWait (results : List (Option GoErr)) : Option GoErr :=
  results.foldl (fun acc r => match acc with | some _ => acc | none => r) none

/-- The tail of `(*lifecycle).Run`: the teardown scope is canceled with
`runner.Wait()`'s result and `Run` returns `context.Cause(teardownCtx)`,
which is the recorded cause, or the sentinel `context.Canceled` when the
recorded cause was `nil`. -/
def lifecycleRunReturn (runnerResults : List (Option GoErr)) : Option GoErr :=
  some ((errgroupWait runnerResults).getD .canceled)

/-! ## Dependency graph and cycle detection (`dependencies.go`) -/

/-- A component handle: an opaque pointer-like identity, embedded as the
component's address. -/
abbrev Comp := Nat

/-- The `compToParents` map, as an association list; the list order of
the keys is the (unspecified) Go map iteration order of the outer
`for root := range compToParents` loop, and each value's list order is
the iteration order of that inner parents set. -/
abbrev ParentsMap := List (Comp × List Comp)

/-- `compToParents[node]`: the parents set of `node`, empty when the key
is absent (a `range` over a `nil` map iterates zero times). -/
def lookupParents (m : ParentsMap) (c : Comp) : List Comp :=
  match m.find? (fun p => p.1 = c) with
  | some p => p.2
  | none => []

/-- `delete(compToParents, node)`. -/
def eraseComp (m : ParentsMap) (c : Comp) : ParentsMap :=
  m.filter (fun p => p.1 ≠ c)

/-- Whether `c` is (still) a key of the map. -/
def hasKey (m : ParentsMap) (c : Comp) : Bool :=
  m.any (fun p => p.1 = c)

/-- Outcome of the inner `for parent := range compToParents[node]` loop
of `findCircularDependencies`: either the reject policy hit the panic
(`circular dependency detected root <-> node`), or iteration finished
with the updated queue and map. -/
inductive ScanOut where
  | panicked (node : Comp)
  | cont (queue : List Comp) (m : ParentsMap)
deriving DecidableEq, Repr

/-- The inner parents loop: each parent equal to `root` either triggers
the panic (reject policy) or deletes `node`'s entry and continues
(elide policy); every other parent is pushed on the FIFO queue. -/
def scanParents (root node : Comp) (remove : Bool) :
    List Comp → List Comp → ParentsMap → ScanOut
  | [], q, m => .cont q m
  | p :: ps, q, m =>
    if p = root then
      if remove then scanParents root node remove ps q (eraseComp m node)
      else .panicked node
    else scanParents root node remove ps (q ++ [p]) m

/-- Outcome of the breadth-first traversal from one root (and of the
whole `findCircularDependencies` run): normal return with the updated
map, the reject-policy panic naming the two endpoints of the back-edge,
or exhaustion of the step budget (the Go loop has no such budget: a run
that is `outOfFuel` for every budget never returns). -/
inductive BfsOut where
  | ok (m : ParentsMap)
  | panicked (root node : Comp)
  | outOfFuel
deriving DecidableEq, Repr

/-- The `for !queue.IsEmpty()` loop of `findCircularDependencies` for one
`root`, spending one unit of fuel per `Pop`. -/
def processRoot (root : Comp) (remove : Bool) :
    Nat → List Comp → ParentsMap → BfsOut
  | _, [], m => .ok m
  | 0, _ :: _, _ => .outOfFuel
  | fuel + 1, node :: rest, m =>
    match scanParents root node remove (lookupParents m node) rest m with
    | .panicked n => .panicked root n
    | .cont q m' => processRoot root remove fuel q m'

/-- Embedding of `findCircularDependencies`: for each root in iteration
order (skipping keys deleted before being reached, as the Go spec
guarantees for map iteration), run the BFS from that root. -/
def findCircularDependencies (remove : Bool) (fuel : Nat) :
    List Comp → ParentsMap → BfsOut
  | [], m => .ok m
  | root :: rest, m =>
    if hasKey m root then
      match processRoot root remove fuel [root] m with
      | .ok m' => findCircularDependencies remove fuel rest m'
      | .panicked r n => .panicked r n
      | .outOfFuel => .outOfFuel
    else findCircularDependencies remove fuel rest m

/-- Embedding of `(*lifecycle).Dependencies` after `buildCompToParents`
has assembled `m` from the per-component extraction results: cycle
detection runs with the configured policy, then each registered
component is mapped to its parents list (empty when absent).  `none`
models a run that exceeded the step budget, `Except.error` the
propagated panic. -/
def DependenciesResult (remove : Bool) (fuel : Nat) (components order : List Comp)
    (m : ParentsMap) : Option (Except (Comp × Comp) (List (Comp × List Comp))) :=
  match findCircularDependencies remove fuel order m with
  | .ok m' => some (.ok (components.map (fun c => (c, lookupParents m' c))))
  | .panicked r n => some (.error (r, n))
  | .outOfFuel => none

/-- `root` is reachable from `v` by following parent edges of `m`
(so `ReachesRoot m r r` says `r` lies on a dependency cycle). -/
inductive ReachesRoot (m : ParentsMap) (root : Comp) : Comp → Prop where
  | base (v : Comp) (h : root ∈ lookupParents m v) : ReachesRoot m root v
  | step (v w : Comp) (h : w ∈ lookupParents m v) (hw : ReachesRoot m root w) :
      ReachesRoot m root v

/-! ## Registration (`lifecycle.go`, `Register`, lines 157-173) -/

/-- A value passed to `Register`: a pointer with an address, a non-pointer
value (any other `reflect.Kind`, distinguished by a tag), or a `nil`
interface (whose `reflect.ValueOf` has kind `Invalid`). -/
inductive CompVal where
  | ptrC (addr : Nat)
  | nonPtrC (tag : Nat)
  | nilC
deriving DecidableEq, Repr

/-- The registration table of the `lifecycle` struct: the `components`
set, the `ptrToComp` reverse index, and `compToImplicitDeps` flattened
to (component, dependency) pairs. -/
structure RegState where
  components : List CompVal
  ptrToComp : List (Nat × CompVal)
  implicitDeps : List (CompVal × CompVal)
deriving DecidableEq, Repr

/-- Insert a (component, dependency) pair into the implicit-deps set. -/
def addImplicitDep (st : RegState) (c d : CompVal) : RegState :=
  if (c, d) ∈ st.implicitDeps then st
  else { st with implicitDeps := st.implicitDeps ++ [(c, d)] }

/-- The body of `Register` for a single component with no variadic
dependencies: an unregistered non-pointer (or nil) component panics, and
the panic leaves the receiver's maps exactly as they were
(`Except.error` carries that state). -/
def registerOne (st : RegState) (c : CompVal) : Except RegState RegState :=
  if c ∈ st.components then .ok st
  else
    match c with
    | .ptrC a =>
        .ok { st with
              components := st.components ++ [c],
              ptrToComp := st.ptrToComp ++ [(a, c)] }
    | _ => .error st

/-- One iteration of the `for _, dep := range implicitDeps` loop of
`Register`: the recursive `lc.Register(dep)` call followed by the
insertion into `compToImplicitDeps[comp]`. -/
def registerDepStep (c : CompVal) (acc : RegState) (d : CompVal) :
    Except RegState RegState := do
  let acc1 ← registerOne acc d
  pure (addImplicitDep acc1 c d)

/-- Embedding of `(*lifecycle).Register(comp, implicitDeps...)`: the
component is inserted first, then each dependency is registered (via the
recursive `lc.Register(dep)`) and recorded in `compToImplicitDeps[comp]`,
in argument order; a panic propagates the table as already mutated. -/
def Register (st : RegState) (c : CompVal) (deps : List CompVal) :
    Except RegState RegState := do
  let st1 ← registerOne st c
  deps.foldlM (registerDepStep c) st1

/-! ## Structural dependency extractor (`dependencies.go`,
`findParentComponents`, lines 128-186) -/

/-- A Go value as seen by the reflection walk: a (non-nil) pointer with
its address, a struct with its fields, a slice or array with its
elements, a map with its key/value pairs in iteration order, or any
other kind (the `default` case of the `switch`).  Interfaces are
unwrapped before the switch, so they are transparent here. -/
inductive GoVal where
  | ptrV (addr : Nat)
  | structV (fields : List GoVal)
  | sliceV (elems : List GoVal)
  | mapV (pairs : List (GoVal × GoVal))
  | baseV
deriving Repr

/-- The heap: pointee value of each live address.  `Elem()` of a pointer
whose address is absent behaves as an untraversable value. -/
abbrev Heap := List (Nat × GoVal)

/-- Dereference a pointer (`val.Elem()`). -/
def derefHeap (heap : Heap) (a : Nat) : GoVal :=
  match heap.find? (fun p => p.1 = a) with
  | some p => p.2
  | none => .baseV

/-- Add a component to the parents set (Go map insert). -/
def insertComp (c : Comp) (l : List Comp) : List Comp :=
  if c ∈ l then l else l ++ [c]

/-- State of the breadth-first walk of `findParentComponents`: the FIFO
queue of `reflect.Value`s, the `visited` pointer set, the `parents`
accumulator, and the `initialized` flag (`inited`) that suppresses the
registered-component lookup for the root pointer itself. -/
structure ExtractSt where
  queue : List GoVal
  visited : List Nat
  parents : List Comp
  inited : Bool

/-- The `for !queue.IsEmpty()` loop of `findParentComponents`, one unit
of fuel per `Pop`.  A pointer already visited is skipped; an unvisited
pointer is marked visited and, once the walk is initialized, a
registered address is recorded as a parent without being traversed;
otherwise traversal continues into the pointee, the fields, the
elements, or the map keys and values. -/
def findParentComponentsAux (heap : Heap) (registered : List Nat) :
    Nat → ExtractSt → Option (List Comp)
  | _, ⟨[], _, ps, _⟩ => some ps
  | 0, ⟨_ :: _, _, _, _⟩ => none
  | fuel + 1, ⟨val :: rest, visited, ps, inited⟩ =>
    match val with
    | .ptrV a =>
      if a ∈ visited then
        findParentComponentsAux heap registered fuel ⟨rest, visited, ps, inited⟩
      else if inited ∧ a ∈ registered then
        findParentComponentsAux heap registered fuel ⟨rest, a :: visited, insertComp a ps, inited⟩
      else
        findParentComponentsAux heap registered fuel
          ⟨rest ++ [derefHeap heap a], a :: visited, ps, true⟩
    | .structV fields =>
        findParentComponentsAux heap registered fuel ⟨rest ++ fields, visited, ps, inited⟩
    | .sliceV elems =>
        findParentComponentsAux heap registered fuel ⟨rest ++ elems, visited, ps, inited⟩
    | .mapV pairs =>
        findParentComponentsAux heap registered fuel
          ⟨rest ++ pairs.flatMap (fun p => [p.1, p.2]), visited, ps, inited⟩
    | .baseV =>
        findParentComponentsAux heap registered fuel ⟨rest, visited, ps, inited⟩

/-- Embedding of `(*lifecycle).findParentComponents(root)`: the parents
set is seeded with `compToImplicitDeps[root]` and the walk starts from
the root pointer value with an empty visited set and the `initialized`
flag down. -/
def findParentComponents (heap : Heap) (registered : List Nat) (rootAddr : Nat)
    (implicitDeps : List Comp) (fuel : Nat) : Option (List Comp) :=
  findParentComponentsAux heap registered fuel ⟨[.ptrV rootAddr], [], implicitDeps, false⟩

/-! ## Theorems -/

/-- C4: for every current status `s` and requested status `n`, `setStatus`
stores `n` and returns true, except exactly when `n` is `ready` and `s` is
not `running`, or `n` is `stopping` and `s` is neither `running` nor
`ready`; in those cases it returns false and leaves the status unchanged. -/
theorem setStatus_spec (s n : LifecycleStatus) :
    setStatus s n =
      if (n = .ready ∧ s ≠ .running) ∨
          (n = .stopping ∧ s ≠ .running ∧ s ≠ .ready) then (false, s)
      else (true, n) := by
  cases s <;> cases n <;> simp [setStatus]

/-- C5 fails as stated: the call sequence `running, ready, running` from
`idle` stores the statuses `idle, running, ready, running`, which is not
non-decreasing in the documented order (`ready` is followed by the
earlier status `running`), because `setStatus` guards only the
transitions to `ready` and `stopping`. -/
theorem setStatusSeq_not_monotone :
    ¬ statusMonotone (setStatusSeq [.running, .ready, .running]) := by
  have hseq : setStatusSeq [.running, .ready, .running] =
      [.idle, .running, .ready, .running] := rfl
  rw [statusMonotone, hseq]
  simp [List.chain'_cons, statusRank]

lemma statusRank_le_setStatus (s n : LifecycleStatus)
    (h : n = .ready ∨ n = .stopping ∨ n = .stopped) :
    statusRank s ≤ statusRank (setStatus s n).2 := by
  rcases h with h | h | h <;> subst h <;> cases s <;> decide

lemma statusTrace_head? (s : LifecycleStatus) (l : List LifecycleStatus) :
    (statusTrace s l).head? = some s := by
  cases l <;> rfl

lemma statusTrace_monotone :
    ∀ (reqs : List LifecycleStatus) (s : LifecycleStatus),
      (∀ n ∈ reqs, n = .ready ∨ n = .stopping ∨ n = .stopped) →
      statusMonotone (statusTrace s reqs)
  | [], s, _ => by simp [statusTrace, statusMonotone]
  | n :: rest, s, h => by
    have h1 : n = .ready ∨ n = .stopping ∨ n = .stopped := h n (by simp)
    have ih := statusTrace_monotone rest (setStatus s n).2
      (fun x hx => h x (by simp [hx]))
    unfold statusTrace statusMonotone
    rw [List.chain'_cons']
    refine ⟨?_, ih⟩
    intro b hb
    rw [statusTrace_head?] at hb
    simp only [Option.mem_def, Option.some.injEq] at hb
    subst hb
    exact statusRank_le_setStatus s n h1

/-- C5 amended: the stored statuses are non-decreasing for the call
sequences the engine itself issues — `running` first, followed only by
requests for `ready`, `stopping`, or `stopped` — since `setStatus` guards
exactly the transitions to `ready` and `stopping`, while a request for
`idle`, `running`, or `stopped` is accepted from any state (so an
arbitrary call sequence can decrease, per the counterexample). -/
theorem setStatusSeq_monotone_engine (rest : List LifecycleStatus)
    (h : ∀ n ∈ rest, n = .ready ∨ n = .stopping ∨ n = .stopped) :
    statusMonotone (setStatusSeq (.running :: rest)) := by
  unfold setStatusSeq statusTrace statusMonotone
  rw [List.chain'_cons']
  constructor
  · intro b hb
    rw [statusTrace_head?] at hb
    simp only [Option.mem_def, Option.some.injEq] at hb
    subst hb
    decide
  · exact statusTrace_monotone rest _ h

/-- Witness for the amended C5 statement at the concrete sequence
`running, ready, stopping, stopped`. -/
theorem setStatusSeq_monotone_engine_witness :
    statusMonotone (setStatusSeq [.running, .ready, .stopping, .stopped]) :=
  setStatusSeq_monotone_engine [.ready, .stopping, .stopped] (by decide)

/-- C3: when a component's `Run` returns `err`, the post-`Run` handler
cancels the lifecycle scope with `UnexpectedCloseComponentError` if `err`
is nil and with `err` itself otherwise, and in either case an
already-recorded first cause is kept, never overwritten. -/
theorem postRun_cause_spec (s : CancelScope) (err : Option GoErr) :
    postRunLifecycleCancel s err =
      ⟨some (match s.cause with
             | some c => c
             | none =>
               match err with
               | none => .unexpectedClose
               | some e => e)⟩ := by
  obtain ⟨cause⟩ := s
  cases cause <;> cases err <;> rfl

/-- C2 fails as stated: in a run with one component and ordered shutdown
— the component has no parents (`waitAllParentProbes` delivers nil) and
its `Run` returns nil — the top-level `Run` returns the `context.Canceled`
sentinel, not nil: `cancelTeardown` is invoked with the nil result of
`runner.Wait()`, and `context.Cause` of a scope canceled with a nil cause
is `context.Canceled`. -/
theorem lifecycleRun_orderly_not_nil :
    lifecycleRunReturn [runnerTaskResult (waitAllParentProbesRecv []) none] =
        some .canceled ∧
      lifecycleRunReturn [runnerTaskResult (waitAllParentProbesRecv []) none] ≠ none := by
  decide

lemma findSome?_waitCtxErr_canceled (l : List GoErr)
    (h : ∀ c ∈ l, c = GoErr.canceled) : l.findSome? waitCtxErr = none := by
  induction l with
  | nil => rfl
  | cons c l ih =>
    have hc := h c (by simp)
    subst hc
    simpa [List.findSome?, waitCtxErr] using ih (fun x hx => h x (by simp [hx]))

lemma errgroupWait_all_none (rs : List (Option GoErr))
    (h : ∀ r ∈ rs, r = none) : errgroupWait rs = none := by
  induction rs with
  | nil => rfl
  | cons r rs ih =>
    have hr := h r (by simp)
    subst hr
    simpa [errgroupWait, List.foldl] using ih (fun x hx => h x (by simp [hx]))

/-- C2 amended: when shutdown is ordered by the embedder (every parent
probe scope ends with the `context.Canceled` cause) and no component's
`Run` returns a non-nil error, the top-level `Run` returns the
`context.Canceled` sentinel — the conventional orderly-shutdown value —
rather than literal nil, which `lifecycleRunReturn` never produces. -/
theorem lifecycleRun_orderly_returns_canceled (parentCauses : List (List GoErr))
    (h : ∀ l ∈ parentCauses, ∀ c ∈ l, c = GoErr.canceled) :
    lifecycleRunReturn (parentCauses.map
        (fun l => runnerTaskResult (waitAllParentProbesRecv l) none)) =
      some .canceled := by
  unfold lifecycleRunReturn
  rw [errgroupWait_all_none]
  · rfl
  · intro r hr
    simp only [List.mem_map] at hr
    obtain ⟨l, hl, hrl⟩ := hr
    rw [← hrl]
    unfold runnerTaskResult waitAllParentProbesRecv
    rw [findSome?_waitCtxErr_canceled l (h l hl)]

/-- Witness for the amended C2 statement: two components, one with a
parent whose probe scope ended with `context.Canceled`, one with no
parents; both `Run`s return nil. -/
theorem lifecycleRun_orderly_returns_canceled_witness :
    lifecycleRunReturn ([[GoErr.canceled], []].map
        (fun l => runnerTaskResult (waitAllParentProbesRecv l) none)) =
      some .canceled :=
  lifecycleRun_orderly_returns_canceled [[GoErr.canceled], []] (by decide)

/-- C8 fails on the code: whenever some parent's probe scope ends with a
cause other than `context.Canceled`, the `waitAllParentProbes` goroutine
performs two sends on its unbuffered channel (the error, then —
because `break` only leaves the loop — the unconditional final nil),
while the runner closure receives exactly once; the second send is never
received, so the probe-waiter goroutine blocks forever and survives the
top-level `Run`. -/
theorem parentProbeWaiter_second_send_unreceived (causes : List GoErr)
    (h : (causes.findSome? waitCtxErr).isSome = true) :
    (parentProbeWaiterSends causes).length = 2 ∧
      runnerTaskReceives < (parentProbeWaiterSends causes).length := by
  unfold parentProbeWaiterSends
  cases hc : causes.findSome? waitCtxErr with
  | none => rw [hc] at h; simp at h
  | some e => exact ⟨rfl, by simp [runnerTaskReceives]⟩

/-- Witness for C8's leak theorem: a single parent whose probe scope was
canceled with a component-supplied readiness failure. -/
theorem parentProbeWaiter_second_send_unreceived_witness :
    (([GoErr.custom "boom"].findSome? waitCtxErr).isSome = true) ∧
      ((parentProbeWaiterSends [GoErr.custom "boom"]).length = 2 ∧
        runnerTaskReceives < (parentProbeWaiterSends [GoErr.custom "boom"]).length) :=
  ⟨by decide, parentProbeWaiter_second_send_unreceived [GoErr.custom "boom"] (by decide)⟩

lemma processRoot_cons (root : Comp) (remove : Bool) (fuel : Nat) (node : Comp)
    (rest : List Comp) (m : ParentsMap) :
    processRoot root remove (fuel + 1) (node :: rest) m =
      match scanParents root node remove (lookupParents m node) rest m with
      | .panicked n => .panicked root n
      | .cont q m' => processRoot root remove fuel q m' := rfl

lemma processRoot_cycle_aux (remove : Bool) :
    ∀ fuel : Nat,
      processRoot 0 remove fuel [1] [(0, [1]), (1, [2]), (2, [1])] = .outOfFuel ∧
        processRoot 0 remove fuel [2] [(0, [1]), (1, [2]), (2, [1])] = .outOfFuel
  | 0 => ⟨rfl, rfl⟩
  | fuel + 1 => by
    have ih := processRoot_cycle_aux remove fuel
    have h1 : processRoot 0 remove (fuel + 1) [1] [(0, [1]), (1, [2]), (2, [1])] =
        processRoot 0 remove fuel [2] [(0, [1]), (1, [2]), (2, [1])] := by
      rw [processRoot_cons]
      rfl
    have h2 : processRoot 0 remove (fuel + 1) [2] [(0, [1]), (1, [2]), (2, [1])] =
        processRoot 0 remove fuel [1] [(0, [1]), (1, [2]), (2, [1])] := by
      rw [processRoot_cons]
      rfl
    exact ⟨h1.trans ih.2, h2.trans ih.1⟩

lemma processRoot_cycle_root (remove : Bool) :
    ∀ fuel : Nat,
      processRoot 0 remove fuel [0] [(0, [1]), (1, [2]), (2, [1])] = .outOfFuel
  | 0 => rfl
  | fuel + 1 => by
    have h : processRoot 0 remove (fuel + 1) [0] [(0, [1]), (1, [2]), (2, [1])] =
        processRoot 0 remove fuel [1] [(0, [1]), (1, [2]), (2, [1])] := by
      rw [processRoot_cons]
      rfl
    exact h.trans (processRoot_cycle_aux remove fuel).1

/-- C1 fails on the code: with the cycle-elision policy enabled, the
graph `parents = {0 ↦ {1}, 1 ↦ {2}, 2 ↦ {1}}` — component 0 depending on
a two-cycle between 1 and 2 — makes the breadth-first traversal from
root 0 re-enqueue 1 and 2 forever whenever the outer map iteration
reaches 0 first: the traversal keeps no visited set and the
cycle-closing test compares only against the current root, so no step
budget suffices and `findCircularDependencies` never returns. -/
theorem findCircularDependencies_elide_diverges (fuel : Nat) :
    findCircularDependencies true fuel [0, 1, 2] [(0, [1]), (1, [2]), (2, [1])] =
      .outOfFuel := by
  have hp := processRoot_cycle_root true fuel
  simp [findCircularDependencies, hasKey, hp]

/-- C6 fails on the code: with the default rejection policy, the same
graph `parents = {0 ↦ {1}, 1 ↦ {2}, 2 ↦ {1}}` under an iteration order
that reaches root 0 first never panics at all — the back-edge between 1
and 2 never points at the current root 0, so the traversal loops
forever instead of aborting with the diagnostic, and supervision is
never reached either way. -/
theorem findCircularDependencies_reject_diverges (fuel : Nat) :
    findCircularDependencies false fuel [0, 1, 2] [(0, [1]), (1, [2]), (2, [1])] =
      .outOfFuel := by
  have hp := processRoot_cycle_root false fuel
  simp [findCircularDependencies, hasKey, hp]

lemma scanParents_panics (root node : Comp) (ps : List Comp) (h : root ∈ ps) :
    ∀ q m, scanParents root node false ps q m = .panicked node := by
  induction ps with
  | nil => cases h
  | cons p ps' ih =>
    intro q m
    by_cases hp : p = root
    · simp [scanParents, hp]
    · have h' : root ∈ ps' := by
        rcases List.mem_cons.mp h with h1 | h1
        · exact absurd h1.symm hp
        · exact h1
      simp [scanParents, hp, ih h']

lemma scanParents_no_root (root node : Comp) (ps : List Comp) (h : root ∉ ps) :
    ∀ q m, scanParents root node false ps q m = .cont (q ++ ps) m := by
  induction ps with
  | nil => intro q m; simp [scanParents]
  | cons p ps' ih =>
    intro q m
    have hp : ¬ p = root := fun hh => h (hh ▸ List.mem_cons_self p ps')
    have h' : root ∉ ps' := fun hh => h (List.mem_cons_of_mem p hh)
    simp [scanParents, hp, ih h']

lemma processRoot_cons_panics (root : Comp) (fuel : Nat) (node : Comp)
    (rest : List Comp) (m : ParentsMap) (h : root ∈ lookupParents m node) :
    processRoot root false (fuel + 1) (node :: rest) m = .panicked root node := by
  rw [processRoot_cons, scanParents_panics root node _ h]

lemma processRoot_cons_no_root (root : Comp) (fuel : Nat) (node : Comp)
    (rest : List Comp) (m : ParentsMap) (h : root ∉ lookupParents m node) :
    processRoot root false (fuel + 1) (node :: rest) m =
      processRoot root false fuel (rest ++ lookupParents m node) m := by
  rw [processRoot_cons, scanParents_no_root root node _ h]

lemma processRoot_advance (m : ParentsMap) (root v : Comp)
    (H : ∀ suf : List Comp, ∃ fuel u,
      processRoot root false fuel (v :: suf) m = .panicked root u) :
    ∀ pre suf : List Comp, ∃ fuel u,
      processRoot root false fuel (pre ++ v :: suf) m = .panicked root u := by
  intro pre
  induction pre with
  | nil => intro suf; exact H suf
  | cons x pre' ih =>
    intro suf
    by_cases hx : root ∈ lookupParents m x
    · exact ⟨1, x, processRoot_cons_panics root 0 x _ m hx⟩
    · obtain ⟨fuel, u, hu⟩ := ih (suf ++ lookupParents m x)
      refine ⟨fuel + 1, u, ?_⟩
      have hstep := processRoot_cons_no_root root fuel x (pre' ++ v :: suf) m hx
      rw [List.cons_append, hstep]
      simpa [List.append_assoc] using hu

lemma reaches_panics (m : ParentsMap) (root : Comp) :
    ∀ v, ReachesRoot m root v →
      ∀ suf, ∃ fuel u, processRoot root false fuel (v :: suf) m = .panicked root u := by
  intro v hv
  induction hv with
  | base w hw =>
    intro suf
    exact ⟨1, w, processRoot_cons_panics root 0 w suf m hw⟩
  | step w x hwx _ ih =>
    intro suf
    by_cases hroot : root ∈ lookupParents m w
    · exact ⟨1, w, processRoot_cons_panics root 0 w suf m hroot⟩
    · obtain ⟨ps1, ps2, hsplit⟩ := List.append_of_mem hwx
      obtain ⟨fuel, u, hu⟩ := processRoot_advance m root x ih (suf ++ ps1) ps2
      refine ⟨fuel + 1, u, ?_⟩
      rw [processRoot_cons_no_root root fuel w suf m hroot, hsplit]
      simpa [List.append_assoc] using hu

lemma reaches_hasKey (m : ParentsMap) (root v : Comp) (h : ReachesRoot m root v) :
    hasKey m v = true := by
  have hne : lookupParents m v ≠ [] := by
    cases h with
    | base v' h1 => intro he; rw [he] at h1; cases h1
    | step v' w' hmem hrw => intro he; rw [he] at hmem; cases hmem
  unfold lookupParents at hne
  unfold hasKey
  cases hf : m.find? (fun p => p.1 = v) with
  | none => rw [hf] at hne; simp at hne
  | some p =>
    have hmem := List.mem_of_find?_eq_some hf
    have hp : p.1 = v := by simpa using List.find?_some hf
    rw [List.any_eq_true]
    exact ⟨p, hmem, by simp [hp]⟩

/-- C9: when the first root reached by the outer map iteration lies on a
dependency cycle — in particular whenever the registered components form
a dependency cycle — `Dependencies()` under the default rejection policy
rebuilds the graph, runs cycle detection, and propagates its panic
instead of returning a snapshot: the method is not total on cyclic
registrations. -/
theorem Dependencies_cycle_panics (m : ParentsMap) (components rest : List Comp)
    (r : Comp) (h : ReachesRoot m r r) :
    ∃ fuel u, DependenciesResult false fuel components (r :: rest) m =
      some (.error (r, u)) := by
  obtain ⟨fuel, u, hu⟩ := reaches_panics m r r h []
  refine ⟨fuel, u, ?_⟩
  simp [DependenciesResult, findCircularDependencies, reaches_hasKey m r r h, hu]

/-- Witness for C9 at the two-cycle `1 ↔ 2` with components `[1, 2]`. -/
theorem Dependencies_cycle_panics_witness :
    ∃ fuel u, DependenciesResult false fuel [1, 2] [1, 2] [(1, [2]), (2, [1])] =
      some (.error (1, u)) :=
  Dependencies_cycle_panics [(1, [2]), (2, [1])] [1, 2] [2] 1
    (.step 1 2 (by decide) (.base 2 (by decide)))

/-- Invariant of the extractor walk: before the root pointer is popped
the state is exactly the initial one; afterwards the root's address is
visited (so the self-reference check skips it), the root is not in the
parents set, and every collected parent is an implicit dependency or a
registered component. -/
def ExtractInv (registered : List Nat) (rootAddr : Nat) (implicitDeps : List Comp)
    (st : ExtractSt) : Prop :=
  (st.inited = false ∧ st.parents = implicitDeps ∧
      st.queue = [GoVal.ptrV rootAddr] ∧ st.visited = []) ∨
    (st.inited = true ∧ rootAddr ∈ st.visited ∧ rootAddr ∉ st.parents ∧
      ∀ x ∈ st.parents, x ∈ implicitDeps ∨ x ∈ registered)

lemma findParentComponentsAux_inv (heap : Heap) (registered : List Nat)
    (rootAddr : Nat) (implicitDeps : List Comp) (hroot : rootAddr ∉ implicitDeps) :
    ∀ (fuel : Nat) (st : ExtractSt),
      ExtractInv registered rootAddr implicitDeps st →
      ∀ res, findParentComponentsAux heap registered fuel st = some res →
        rootAddr ∉ res ∧ ∀ x ∈ res, x ∈ implicitDeps ∨ x ∈ registered := by
  intro fuel
  induction fuel with
  | zero =>
    rintro ⟨queue, visited, ps, inited⟩ hinv res hres
    simp only [ExtractInv] at hinv
    cases queue with
    | nil =>
      have hps : ps = res := by simpa [findParentComponentsAux] using hres
      subst hps
      rcases hinv with ⟨_, _, hq, _⟩ | ⟨_, _, hnp, hsub⟩
      · exact absurd hq (by simp)
      · exact ⟨hnp, hsub⟩
    | cons val rest => simp [findParentComponentsAux] at hres
  | succ fuel ih =>
    rintro ⟨queue, visited, ps, inited⟩ hinv res hres
    simp only [ExtractInv] at hinv
    cases queue with
    | nil =>
      have hps : ps = res := by simpa [findParentComponentsAux] using hres
      subst hps
      rcases hinv with ⟨_, _, hq, _⟩ | ⟨_, _, hnp, hsub⟩
      · exact absurd hq (by simp)
      · exact ⟨hnp, hsub⟩
    | cons val rest =>
      cases val with
      | ptrV a =>
        by_cases hvis : a ∈ visited
        · have hres' : findParentComponentsAux heap registered fuel
              ⟨rest, visited, ps, inited⟩ = some res := by
            simpa [findParentComponentsAux, hvis] using hres
          rcases hinv with ⟨_, _, hq, hv⟩ | hinv2
          · rw [hv] at hvis; cases hvis
          · exact ih ⟨rest, visited, ps, inited⟩ (Or.inr hinv2) res hres'
        · by_cases hreg : inited = true ∧ a ∈ registered
          · have hres' : findParentComponentsAux heap registered fuel
                ⟨rest, a :: visited, insertComp a ps, inited⟩ = some res := by
              simpa [findParentComponentsAux, hvis, hreg] using hres
            rcases hinv with ⟨hi, _, _, _⟩ | ⟨hi, hvisr, hnp, hsub⟩
            · rw [hi] at hreg; exact absurd hreg.1 (by simp)
            · have hane : a ≠ rootAddr := fun he => hvis (he ▸ hvisr)
              refine ih ⟨rest, a :: visited, insertComp a ps, inited⟩
                (Or.inr ⟨hi, by simp [hvisr], ?_, ?_⟩) res hres'
              · intro hmem
                unfold insertComp at hmem
                by_cases hin : a ∈ ps
                · rw [if_pos hin] at hmem; exact hnp hmem
                · rw [if_neg hin] at hmem
                  rcases List.mem_append.mp hmem with hmem | hmem
                  · exact hnp hmem
                  · simp only [List.mem_singleton] at hmem
                    exact hane hmem.symm
              · intro x hx
                unfold insertComp at hx
                by_cases hin : a ∈ ps
                · rw [if_pos hin] at hx; exact hsub x hx
                · rw [if_neg hin] at hx
                  rcases List.mem_append.mp hx with hx | hx
                  · exact hsub x hx
                  · simp only [List.mem_singleton] at hx
                    exact hx ▸ Or.inr hreg.2
          · have hres' : findParentComponentsAux heap registered fuel
                ⟨rest ++ [derefHeap heap a], a :: visited, ps, true⟩ = some res := by
              simpa [findParentComponentsAux, hvis, hreg] using hres
            rcases hinv with ⟨_, hp, hq, _⟩ | ⟨_, hvisr, hnp, hsub⟩
            · have ha : a = rootAddr := by
                have := congrArg List.head? hq
                simpa using this
              refine ih ⟨rest ++ [derefHeap heap a], a :: visited, ps, true⟩
                (Or.inr ⟨rfl, by simp [ha], ?_, ?_⟩) res hres'
              · rw [hp]; exact hroot
              · rw [hp]; exact fun x hx => Or.inl hx
            · exact ih ⟨rest ++ [derefHeap heap a], a :: visited, ps, true⟩
                (Or.inr ⟨rfl, by simp [hvisr], hnp, hsub⟩) res hres'
      | structV fields =>
        have hres' : findParentComponentsAux heap registered fuel
            ⟨rest ++ fields, visited, ps, inited⟩ = some res := by
          simpa [findParentComponentsAux] using hres
        rcases hinv with ⟨_, _, hq, _⟩ | hinv2
        · exact absurd hq (by simp)
        · exact ih ⟨rest ++ fields, visited, ps, inited⟩ (Or.inr hinv2) res hres'
      | sliceV elems =>
        have hres' : findParentComponentsAux heap registered fuel
            ⟨rest ++ elems, visited, ps, inited⟩ = some res := by
          simpa [findParentComponentsAux] using hres
        rcases hinv with ⟨_, _, hq, _⟩ | hinv2
        · exact absurd hq (by simp)
        · exact ih ⟨rest ++ elems, visited, ps, inited⟩ (Or.inr hinv2) res hres'
      | mapV pairs =>
        have hres' : findParentComponentsAux heap registered fuel
            ⟨rest ++ pairs.flatMap (fun p => [p.1, p.2]), visited, ps, inited⟩ =
              some res := by
          simpa [findParentComponentsAux] using hres
        rcases hinv with ⟨_, _, hq, _⟩ | hinv2
        · exact absurd hq (by simp)
        · exact ih ⟨rest ++ pairs.flatMap (fun p => [p.1, p.2]), visited, ps, inited⟩
            (Or.inr hinv2) res hres'
      | baseV =>
        have hres' : findParentComponentsAux heap registered fuel
            ⟨rest, visited, ps, inited⟩ = some res := by
          simpa [findParentComponentsAux] using hres
        rcases hinv with ⟨_, _, hq, _⟩ | hinv2
        · exact absurd hq (by simp)
        · exact ih ⟨rest, visited, ps, inited⟩ (Or.inr hinv2) res hres'

/-- C7: whatever parents the structural walk of `findParentComponents`
returns, each one is an implicit dependency or a registered component,
and the root component itself is never among them (its address is
visited before the `initialized` flag allows parent lookups, so a
reference back to the root anywhere below it is skipped), provided the
root is not its own declared implicit dependency. -/
theorem findParentComponents_excludes_root (heap : Heap) (registered : List Nat)
    (rootAddr : Nat) (implicitDeps : List Comp) (fuel : Nat) (res : List Comp)
    (hroot : rootAddr ∉ implicitDeps)
    (hres : findParentComponents heap registered rootAddr implicitDeps fuel = some res) :
    rootAddr ∉ res ∧ ∀ x ∈ res, x ∈ implicitDeps ∨ x ∈ registered :=
  findParentComponentsAux_inv heap registered rootAddr implicitDeps hroot fuel
    ⟨[GoVal.ptrV rootAddr], [], implicitDeps, false⟩
    (Or.inl ⟨rfl, rfl, rfl, rfl⟩) res hres

/-- Witness for C7: the component at address 1 is a struct holding a
pointer back to itself and a pointer to the registered component at
address 2; the extractor returns exactly `[2]`, which excludes the root
and lies in the registered set. -/
theorem findParentComponents_excludes_root_witness :
    (1 : Nat) ∉ ([] : List Comp) ∧
      ((1 : Nat) ∉ [2] ∧ ∀ x ∈ [2], x ∈ ([] : List Comp) ∨ x ∈ [1, 2]) :=
  ⟨by simp, findParentComponents_excludes_root
    [(1, GoVal.structV [GoVal.ptrV 1, GoVal.ptrV 2]), (2, GoVal.baseV)]
    [1, 2] 1 [] 10 [2] (by simp) (by decide)⟩

lemma addImplicitDep_components (st : RegState) (c d : CompVal) :
    (addImplicitDep st c d).components = st.components := by
  unfold addImplicitDep
  split <;> rfl

lemma registerDepStep_ptr (c : CompVal) (st : RegState) (b : Nat) :
    ∃ st1, registerDepStep c st (.ptrC b) = .ok st1 ∧
      (∀ y ∈ st.components, y ∈ st1.components) ∧
      CompVal.ptrC b ∈ st1.components ∧
      ∀ y ∈ st1.components, y ∈ st.components ∨ y = CompVal.ptrC b := by
  by_cases hmem : CompVal.ptrC b ∈ st.components
  · refine ⟨addImplicitDep st c (.ptrC b), ?_, ?_, ?_, ?_⟩
    · simp [registerDepStep, registerOne, hmem]
    · rw [addImplicitDep_components]; exact fun y hy => hy
    · rw [addImplicitDep_components]; exact hmem
    · rw [addImplicitDep_components]; exact fun y hy => Or.inl hy
  · refine ⟨addImplicitDep
        ⟨st.components ++ [CompVal.ptrC b], st.ptrToComp ++ [(b, CompVal.ptrC b)],
          st.implicitDeps⟩ c (.ptrC b), ?_, ?_, ?_, ?_⟩
    · simp [registerDepStep, registerOne, hmem]
    · rw [addImplicitDep_components]
      exact fun y hy => List.mem_append.mpr (Or.inl hy)
    · rw [addImplicitDep_components]
      exact List.mem_append.mpr (Or.inr (by simp))
    · rw [addImplicitDep_components]
      intro y hy
      rcases List.mem_append.mp hy with h1 | h1
      · exact Or.inl h1
      · simp only [List.mem_singleton] at h1
        exact Or.inr h1

lemma registerDepStep_nonptr (c : CompVal) (st : RegState) (d : CompVal)
    (hd : ∀ b, d ≠ CompVal.ptrC b) (hmem : d ∉ st.components) :
    registerDepStep c st d = .error st := by
  unfold registerDepStep registerOne
  rw [if_neg hmem]
  cases d with
  | ptrC b => exact absurd rfl (hd b)
  | nonPtrC t => rfl
  | nilC => rfl

lemma foldRegister_panics (c : CompVal) (d : CompVal)
    (hd : ∀ b, d ≠ CompVal.ptrC b) :
    ∀ (ds1 ds2 : List CompVal) (st : RegState),
      (∀ x ∈ ds1, ∃ b, x = CompVal.ptrC b) →
      d ∉ st.components →
      ∃ st', (ds1 ++ d :: ds2).foldlM (registerDepStep c) st = .error st' ∧
        (∀ y ∈ st.components, y ∈ st'.components) ∧
        ∀ x ∈ ds1, x ∈ st'.components := by
  intro ds1
  induction ds1 with
  | nil =>
    intro ds2 st _ hdst
    refine ⟨st, ?_, fun y hy => hy, by simp⟩
    rw [List.nil_append, List.foldlM_cons, registerDepStep_nonptr c st d hd hdst]
    rfl
  | cons x ds1' ih =>
    intro ds2 st hptr hdst
    obtain ⟨b, hb⟩ := hptr x (by simp)
    subst hb
    obtain ⟨st1, hstep, hgrow, hbmem, hchar⟩ := registerDepStep_ptr c st b
    have hd1 : d ∉ st1.components := by
      intro hmem2
      rcases hchar d hmem2 with h1 | h1
      · exact hdst h1
      · exact hd b h1
    obtain ⟨st', hfold, hgrow', hmem'⟩ := ih ds2 st1
      (fun y hy => hptr y (by simp [hy])) hd1
    refine ⟨st', ?_, fun y hy => hgrow' _ (hgrow y hy), ?_⟩
    · rw [List.cons_append, List.foldlM_cons, hstep]
      exact hfold
    · intro y hy
      rcases List.mem_cons.mp hy with h1 | h1
      · exact h1 ▸ hgrow' _ hbmem
      · exact hmem' y h1

/-- C10: `Register` is not atomic on error — when `c` is a pointer and
some variadic dependency is a non-pointer (or a nil interface), the
recursive registration of that dependency panics only after `c` and
every dependency preceding the offender have already been inserted into
the registration table, which is left partially mutated. -/
theorem Register_panics_after_partial_insert (st : RegState) (a : Nat)
    (ds1 : List CompVal) (d : CompVal) (ds2 : List CompVal)
    (hptr : ∀ x ∈ ds1, ∃ b, x = CompVal.ptrC b)
    (hd : ∀ b, d ≠ CompVal.ptrC b)
    (hdst : d ∉ st.components) :
    ∃ st', Register st (.ptrC a) (ds1 ++ d :: ds2) = .error st' ∧
      CompVal.ptrC a ∈ st'.components ∧ ∀ x ∈ ds1, x ∈ st'.components := by
  by_cases hmem : CompVal.ptrC a ∈ st.components
  · have h1 : registerOne st (.ptrC a) = .ok st := by
      simp [registerOne, hmem]
    obtain ⟨st', hfold, hgrow, hds⟩ :=
      foldRegister_panics (.ptrC a) d hd ds1 ds2 st hptr hdst
    refine ⟨st', ?_, hgrow _ hmem, hds⟩
    unfold Register
    rw [h1]
    exact hfold
  · have h1 : registerOne st (.ptrC a) =
        .ok ⟨st.components ++ [CompVal.ptrC a], st.ptrToComp ++ [(a, CompVal.ptrC a)],
          st.implicitDeps⟩ := by
      simp [registerOne, hmem]
    have hdst0 : d ∉ st.components ++ [CompVal.ptrC a] := by
      intro hmem2
      rcases List.mem_append.mp hmem2 with h2 | h2
      · exact hdst h2
      · simp only [List.mem_singleton] at h2
        exact hd a h2
    obtain ⟨st', hfold, hgrow, hds⟩ := foldRegister_panics (.ptrC a) d hd ds1 ds2
      ⟨st.components ++ [CompVal.ptrC a], st.ptrToComp ++ [(a, CompVal.ptrC a)],
        st.implicitDeps⟩ hptr hdst0
    refine ⟨st', ?_, ?_, hds⟩
    · unfold Register
      rw [h1]
      exact hfold
    · exact hgrow _ (List.mem_append.mpr (Or.inr (by simp)))

/-- Witness for C10: on an empty table, `Register` of the pointer
component 1 with dependencies `[pointer 2, non-pointer]` panics with
both 1 and 2 already registered. -/
theorem Register_panics_after_partial_insert_witness :
    ∃ st', Register ⟨[], [], []⟩ (.ptrC 1) [.ptrC 2, .nonPtrC 0] = .error st' ∧
      CompVal.ptrC 1 ∈ st'.components ∧
      ∀ x ∈ [CompVal.ptrC 2], x ∈ st'.components :=
  Register_panics_after_partial_insert ⟨[], [], []⟩ 1 [.ptrC 2] (.nonPtrC 0) []
    (by intro x hx; simp only [List.mem_singleton] at hx; exact ⟨2, hx⟩)
    (fun b h => CompVal.noConfusion h)
    (by simp)

end Goscade
